import Mathlib

/-!
Shallow embedding of `src/phalanx/docs/models.py` (the Phalanx configuration
model loader) and proofs about it.

Modelling conventions:
* Parsed YAML values (`yaml.safe_load` output) are represented by the
  inductive type `Yaml`.  Top-level configuration documents, and the
  per-application values mappings, are association lists `Doc` from string
  keys to `Yaml` values (the documents consumed by this code are YAML
  mappings with string keys).
* Python exceptions relevant to this code are `PyErr`: `keyError` for a
  failed dict lookup (`KeyError`), `typeError` for subscripting or iterating
  a value of the wrong shape (`TypeError`).  Functions that can raise return
  `Except PyErr`.  A `try/except KeyError` in the source catches only
  `keyError`; `typeError` propagates.
* Filesystem access is hoisted to inputs: the application directory name,
  the mapping of environment name to per-environment values (from globbing
  `values-*.yaml`), and the optional text of the deployment template file
  (`none` when `is_file()` is false) are parameters.
* Python's `list.sort()` on strings compares by code point; it is embedded
  as an insertion sort over a code-point lexicographic order on `List Char`
  (`charListLe`), which agrees with Python's string order on these inputs.
* Python's `str.replace("-", "_")` is embedded as `underscoreName` (the
  pattern is a single character, so per-character mapping is exact).
* The regex search in `Application.load` (namespace extraction) is embedded
  as `extractNamespace`; see the comments there.  Python's `\w` is modelled
  over the ASCII range, which covers every input appearing in the claims.
-/

/-- Parsed YAML data, the result of `yaml.safe_load`. -/
inductive Yaml where
  | null
  | bool (b : Bool)
  | int (n : Int)
  | str (s : String)
  | seq (xs : List Yaml)
  | map (m : List (String × Yaml))

/-- Python exceptions this code can raise: `KeyError` from a dict lookup,
`TypeError` from subscripting or iterating a value of the wrong shape. -/
inductive PyErr where
  | keyError
  | typeError
deriving DecidableEq

/-- A YAML mapping document with string keys, as loaded from one file. -/
abbrev Doc := List (String × Yaml)

/-- Python `d[k]` on a dict: the value, or `KeyError` when absent. -/
def Doc.get (d : Doc) (k : String) : Except PyErr Yaml :=
  match List.lookup k d with
  | some v => .ok v
  | none => .error .keyError

/-- Python `v[k]` with a string key on an arbitrary value: a dict lookup
yields the value or `KeyError`; subscripting any non-dict value (list,
string, number, bool, None) with a string key raises `TypeError`. -/
def Yaml.getKey : Yaml → String → Except PyErr Yaml
  | .map m, k =>
    match List.lookup k m with
    | some v => .ok v
    | none => .error .keyError
  | _, _ => .error .typeError

/-- Code-point lexicographic order on character lists: the order Python uses
to compare strings. -/
def charListLe : List Char → List Char → Bool
  | [], _ => true
  | _ :: _, [] => false
  | a :: as, b :: bs => if a < b then true else if b < a then false else charListLe as bs

/-- String comparison by code points (Python `<=` on `str`). -/
def strLe (a b : String) : Bool := charListLe a.toList b.toList

/-- The sorting relation on strings used by `list.sort()`. -/
def strRel : String → String → Prop := fun a b => strLe a b = true

instance : DecidableRel strRel := fun a b => instDecidableEqBool _ _

/-- Python `active_environments.sort()`. -/
def sortStrings (l : List String) : List String := List.insertionSort strRel l

/-- Python `app_name.replace("-", "_")`: the pattern is one character, so
replacing all occurrences is a per-character map. -/
def underscoreName (s : String) : String :=
  String.mk (s.toList.map (fun c => if c == '-' then '_' else c))

/-- The enablement check shared by both resolvers (modulo the key used):
`d[key]["enabled"] is True`.  A missing key at either level is `keyError`;
a non-dict value under `key` is `typeError`; otherwise the result is whether
the `enabled` value is exactly the boolean `True`. -/
def enabledKeyCheck (d : Doc) (key : String) : Except PyErr Bool :=
  match Doc.get d key with
  | .error e => .error e
  | .ok v =>
    match v.getKey "enabled" with
    | .error e => .error e
    | .ok w =>
      match w with
      | .bool true => .ok true
      | _ => .ok false

/-- Characters matched by the regex class from the source pattern: Python
word characters (modelled over ASCII) plus the hyphen. -/
def isWordDashChar (c : Char) : Bool := c.isAlphanum || c == '_' || c == '-'

/-- Whether `pat` is an initial segment of `text`. -/
def startsWithChars : List Char → List Char → Bool
  | [], _ => true
  | _ :: _, [] => false
  | p :: ps, t :: ts => p == t && startsWithChars ps ts

/-- Drop a literal pattern from the head of the text, or fail. -/
def afterLiteral (pat cs : List Char) : Option (List Char) :=
  if startsWithChars pat cs then some (cs.drop pat.length) else none

/-- Whether `needle` occurs as a contiguous segment of the text (Python
`needle in text` on strings). -/
def listInfix (needle : List Char) : List Char → Bool
  | [] => needle.isEmpty
  | c :: rest => startsWithChars needle (c :: rest) || listInfix needle rest

/-- Python `s in v`: key membership for a dict, element membership for a
list (a string equals only an equal string), substring search for a string,
and `TypeError` for non-iterable values (None, bool, int). -/
def Yaml.containsPy : Yaml → String → Except PyErr Bool
  | .map m, s => .ok (m.any (fun p => p.1 == s))
  | .seq xs, s =>
    .ok (xs.any (fun y => match y with | .str t => t == s | _ => false))
  | .str t, s => .ok (listInfix s.toList t.toList)
  | _, _ => .error .typeError

/-- The optional opening quote of the pattern: one double quote is consumed
when present (the regex admits no other alternative, since a letter must
follow either way and a quote is not a letter). -/
def stripQuote (r : List Char) : List Char :=
  if r.head? = some '"' then r.tail else r

/-- The capturing group `[a-zA-Z][\w-]+`: one letter, then a maximal
nonempty run of word characters or hyphens (the trailing optional quote of
the pattern constrains nothing and binds no part of the group). -/
def tokenAfterQuote : List Char → Option String
  | [] => none
  | c :: t =>
    if c.isAlpha then
      match t.takeWhile isWordDashChar with
      | [] => none
      | w => some (String.mk (c :: w))
    else none

/-- Attempt of the source regex
`destination:\n[ ]+namespace:[ ]*["]?(?P<namespace>[a-zA-Z][\w-]+)["]?`
anchored at the start of `cs`, returning the captured group.  Every
quantifier in the pattern is deterministic here: the greedy space runs
admit no backtracking alternative that can succeed (a shorter space run
leaves a space where a letter or the literal label must follow), so
maximal-munch scanning is exact. -/
def matchNamespaceAt (cs : List Char) : Option String :=
  match afterLiteral "destination:\n".toList cs with
  | none => none
  | some r1 =>
    if r1.head? = some ' ' then
      match afterLiteral "namespace:".toList (r1.dropWhile (fun c => c == ' ')) with
      | none => none
      | some r3 => tokenAfterQuote (stripQuote (r3.dropWhile (fun c => c == ' ')))
    else none

/-- Leftmost search: try the anchored match at each start position in order,
as `re.search` does (the `MULTILINE` and `DOTALL` flags in the source are
inert: the pattern contains no `^`, `$` or `.`). -/
def searchNamespace : List Char → Option String
  | [] => none
  | c :: rest =>
    match matchNamespaceAt (c :: rest) with
    | some s => some s
    | none => searchNamespace rest

/-- The namespace captured from a deployment-template text, if any. -/
def extractNamespace (t : String) : Option String := searchNamespace t.toList

/-- The model of `Application` (models.py lines 19-36).  `nspace` embeds the
Python field `namespace` (a reserved word in Lean). -/
structure Application where
  name : String
  values : Doc
  active_environments : List String
  nspace : String

/-- The sorting relation on applications: by name (`key=lambda a: a.name`). -/
def appRel : Application → Application → Prop := fun a b => strLe a.name b.name = true

instance : DecidableRel appRel := fun a b => instDecidableEqBool _ _

/-- Python `apps.sort(key=lambda a: a.name)`. -/
def sortApps (l : List Application) : List Application := List.insertionSort appRel l

/-- The active-environments loop of `Application.load` (lines 63-74): for
each known environment in order, `argocd` is always appended; otherwise the
environment's document is probed at the underscored application name for
`enabled is True`, with `KeyError` caught (skip) and `TypeError`
propagated. -/
def computeActive (app_name : String) : List (String × Doc) → Except PyErr (List String)
  | [] => .ok []
  | (env_name, env_configs) :: rest =>
    if app_name == "argocd" then
      match computeActive app_name rest with
      | .ok l => .ok (env_name :: l)
      | .error e => .error e
    else
      match enabledKeyCheck env_configs (underscoreName app_name) with
      | .ok true =>
        match computeActive app_name rest with
        | .ok l => .ok (env_name :: l)
        | .error e => .error e
      | .ok false => computeActive app_name rest
      | .error .keyError => computeActive app_name rest
      | .error .typeError => .error .typeError

/-- The namespace resolution of `Application.load` (lines 77-97): `"Unknown"`
when the template file is absent or the pattern does not match, else the
captured token.  Diagnostics printed in the source are side effects with no
bearing on the result. -/
def resolveNamespace (template : Option String) : String :=
  match template with
  | none => "Unknown"
  | some t =>
    match extractNamespace t with
    | some ns => ns
    | none => "Unknown"

/-- `Application.load` (lines 38-104).  `app_name` is the directory name,
`values` the per-environment values mapping collected from the glob,
`env_values` the pre-loaded environment documents keyed by name, `template`
the deployment-template text when the file exists. -/
def Application.load (app_name : String) (values : Doc)
    (env_values : List (String × Doc)) (template : Option String) :
    Except PyErr Application :=
  match computeActive app_name env_values with
  | .error e => .error e
  | .ok active =>
    .ok ⟨app_name, values, sortStrings active, resolveNamespace template⟩

/-- The model of `Environment` (lines 107-124).  `vaultPathPrefix` embeds
the Python field `vault_path_prefix`; `domain` and `vaultPathPrefix` are
kept as raw YAML values since the dataclass does not enforce their types. -/
structure Environment where
  name : String
  domain : Yaml
  vaultPathPrefix : Yaml
  apps : List Application

/-- `Environment.get_app` (lines 204-209): first application with the given
name, if any. -/
def Environment.get_app (e : Environment) (nm : String) : Option Application :=
  e.apps.find? (fun a => a.name == nm)

/-- Reads the mandatory `environment` key (line 217).  Modelling note: the
name is used as a dict key and list-sort element, so the embedding keeps it
a string — the schema requires a string here, and no claim concerns a
non-string value; the out-of-model case is marked `typeError`. -/
def envNameOf (d : Doc) : Except PyErr String :=
  match Doc.get d "environment" with
  | .error e => .error e
  | .ok (.str s) => .ok s
  | .ok _ => .error .typeError

/-- The app-selection loop of `Environment.load` (lines 220-231): `argocd`
is always included; otherwise the document is probed at the application's
exact name for `enabled is True`, `KeyError` caught (skip), `TypeError`
propagated. -/
def selectApps (values : Doc) : List Application → Except PyErr (List Application)
  | [] => .ok []
  | a :: rest =>
    if a.name == "argocd" then
      match selectApps values rest with
      | .ok l => .ok (a :: l)
      | .error e => .error e
    else
      match enabledKeyCheck values a.name with
      | .ok true =>
        match selectApps values rest with
        | .ok l => .ok (a :: l)
        | .error e => .error e
      | .ok false => selectApps values rest
      | .error .keyError => selectApps values rest
      | .error .typeError => .error .typeError

/-- `Environment.load` (lines 211-239): the mandatory `environment` key is
read first, then the app-selection loop runs and the result is sorted by
name, then the mandatory `fqdn` and `vault_path_prefix` keys are read at
construction; a missing mandatory key raises `KeyError` uncaught. -/
def Environment.load (values : Doc) (applications : List Application) :
    Except PyErr Environment :=
  match envNameOf values with
  | .error e => .error e
  | .ok nm =>
    match selectApps values applications with
    | .error e => .error e
    | .ok sel =>
      match Doc.get values "fqdn" with
      | .error e => .error e
      | .ok dom =>
        match Doc.get values "vault_path_prefix" with
        | .error e => .error e
        | .ok vp => .ok ⟨nm, dom, vp, sortApps sel⟩

/-- `Environment.identity_provider` (lines 162-179): `"Unknown"` when the
gafaelfawr application is absent; otherwise the unprotected lookups
`gafaelfawr.values[self.name]["config"]` run (no `except KeyError` here,
unlike the sibling accessors), then the provider sub-keys are probed in
order cilogon, github, oidc. -/
def Environment.identity_provider (e : Environment) : Except PyErr String :=
  match e.get_app "gafaelfawr" with
  | none => .ok "Unknown"
  | some g =>
    match Doc.get g.values e.name with
    | .error er => .error er
    | .ok v =>
      match v.getKey "config" with
      | .error er => .error er
      | .ok cfg =>
        match cfg.containsPy "cilogon" with
        | .error er => .error er
        | .ok true => .ok "CILogon"
        | .ok false =>
          match cfg.containsPy "github" with
          | .error er => .error er
          | .ok true => .ok "GitHub"
          | .ok false =>
            match cfg.containsPy "oidc" with
            | .error er => .error er
            | .ok true => .ok "OIDC"
            | .ok false => .ok "Unknown"

/-- One application directory as presented to the orchestrator: its name,
its per-environment values files, and its template text when present. -/
structure AppInput where
  app_name : String
  values : Doc
  template : Option String

/-- The model of `Phalanx` (lines 242-250). -/
structure Phalanx where
  environments : List Environment
  apps : List Application

/-- Python dict assignment `env_values[name] = values`: an existing key
keeps its position and gets the new value; a new key is appended. -/
def insertEnv (m : List (String × Doc)) (nm : String) (d : Doc) : List (String × Doc) :=
  if m.any (fun p => p.1 == nm) then
    m.map (fun p => if p.1 == nm then (nm, d) else p)
  else m ++ [(nm, d)]

/-- The environment pre-load loop of `load_phalanx` (lines 271-279): each
document's mandatory `environment` key names it in the dict. -/
def buildEnvValues (acc : List (String × Doc)) : List Doc → Except PyErr (List (String × Doc))
  | [] => .ok acc
  | d :: rest =>
    match envNameOf d with
    | .error e => .error e
    | .ok nm => buildEnvValues (insertEnv acc nm d) rest

/-- The application-gathering loop of `load_phalanx` (lines 282-288). -/
def loadApps (env_values : List (String × Doc)) : List AppInput → Except PyErr (List Application)
  | [] => .ok []
  | i :: rest =>
    match Application.load i.app_name i.values env_values i.template with
    | .error e => .error e
    | .ok a =>
      match loadApps env_values rest with
      | .error e => .error e
      | .ok l => .ok (a :: l)

/-- The environment-gathering loop of `load_phalanx` (lines 292-294). -/
def loadEnvs (applications : List Application) : List (String × Doc) → Except PyErr (List Environment)
  | [] => .ok []
  | (_, d) :: rest =>
    match Environment.load d applications with
    | .error e => .error e
    | .ok env =>
      match loadEnvs applications rest with
      | .error e => .error e
      | .ok l => .ok (env :: l)

/-- `Phalanx.load_phalanx` (lines 252-296), with filesystem discovery hoisted
to inputs: the environment documents in discovery order and the application
directories in discovery order. -/
def Phalanx.load (envDocs : List Doc) (appInputs : List AppInput) : Except PyErr Phalanx :=
  match buildEnvValues [] envDocs with
  | .error e => .error e
  | .ok env_values =>
    match loadApps env_values appInputs with
    | .error e => .error e
    | .ok apps =>
      match loadEnvs (sortApps apps) env_values with
      | .error e => .error e
      | .ok envs => .ok ⟨envs, sortApps apps⟩

/-!
Helper lemmas: properties of the string order, the sorting embeddings, and
the two enablement-selection loops.
-/

-- appended to a copy of the defs for testing
theorem charListLe_total (a b : List Char) : charListLe a b = true ∨ charListLe b a = true := by
  induction a generalizing b with
  | nil => left; rfl
  | cons x xs ih =>
    cases b with
    | nil => right; rfl
    | cons y ys =>
      by_cases h1 : x < y
      · left; simp [charListLe, h1]
      · by_cases h2 : y < x
        · right; simp [charListLe, h2, asymm h2]
        · have := ih ys
          simp [charListLe, h1, h2]
          exact this

theorem charListLe_trans (a b c : List Char) (h1 : charListLe a b = true)
    (h2 : charListLe b c = true) : charListLe a c = true := by
  induction a generalizing b c with
  | nil => rfl
  | cons x xs ih =>
    cases b with
    | nil => simp [charListLe] at h1
    | cons y ys =>
      cases c with
      | nil => simp [charListLe] at h2
      | cons z zs =>
        simp only [charListLe] at h1 h2 ⊢
        by_cases hxy : x < y
        · by_cases hyz : y < z
          · simp [lt_trans hxy hyz]
          · by_cases hzy : z < y
            · simp [hyz, hzy] at h2
            · have hyzeq : y = z := le_antisymm (not_lt.mp hzy) (not_lt.mp hyz)
              subst hyzeq
              simp [hxy]
        · by_cases hyx : y < x
          · simp [hxy, hyx] at h1
          · have hxy' : x = y := le_antisymm (not_lt.mp hyx) (not_lt.mp hxy)
            subst hxy'
            simp only [if_neg (lt_irrefl x)] at h1
            by_cases hxz : x < z
            · simp [hxz]
            · by_cases hzx : z < x
              · simp [hxz, hzx] at h2
              · have hxz' : x = z := le_antisymm (not_lt.mp hzx) (not_lt.mp hxz)
                subst hxz'
                simp only [if_neg (lt_irrefl x)] at h2 ⊢
                exact ih ys zs h1 h2

instance : IsTotal String strRel := ⟨fun a b => charListLe_total a.toList b.toList⟩

instance : IsTrans String strRel :=
  ⟨fun a b c h1 h2 => charListLe_trans a.toList b.toList c.toList h1 h2⟩

instance : IsTotal Application appRel := ⟨fun a b => charListLe_total a.name.toList b.name.toList⟩

instance : IsTrans Application appRel :=
  ⟨fun a b c h1 h2 => charListLe_trans a.name.toList b.name.toList c.name.toList h1 h2⟩

theorem sortStrings_sorted (l : List String) : List.Sorted strRel (sortStrings l) :=
  List.sorted_insertionSort strRel l

theorem sortStrings_perm (l : List String) : List.Perm (sortStrings l) l :=
  List.perm_insertionSort strRel l

theorem sortApps_sorted (l : List Application) : List.Sorted appRel (sortApps l) :=
  List.sorted_insertionSort appRel l

theorem sortApps_perm (l : List Application) : List.Perm (sortApps l) l :=
  List.perm_insertionSort appRel l

/-- Whether an `Except`-valued check returned exactly `ok true`. -/
def isOkTrue (r : Except PyErr Bool) : Bool :=
  match r with
  | .ok true => true
  | _ => false

theorem isOkTrue_iff (r : Except PyErr Bool) : isOkTrue r = true ↔ r = .ok true := by
  cases r with
  | ok b => cases b <;> simp [isOkTrue]
  | error e => simp [isOkTrue]

/-- Boolean form of the activity condition tested in the loop of
`Application.load`. -/
def activeCond (n : String) (p : String × Doc) : Bool :=
  n == "argocd" || isOkTrue (enabledKeyCheck p.2 (underscoreName n))

theorem computeActive_eq_filter {n : String} {envs : List (String × Doc)} {l : List String}
    (h : computeActive n envs = .ok l) :
    l = (envs.filter (activeCond n)).map Prod.fst := by
  induction envs generalizing l with
  | nil =>
    simp only [computeActive] at h
    cases h
    rfl
  | cons p rest ih =>
    obtain ⟨env_name, env_configs⟩ := p
    rw [computeActive] at h
    by_cases hn : n = "argocd"
    · have hnb : (n == "argocd") = true := by simp [hn]
      rw [if_pos hnb] at h
      cases hrec : computeActive n rest with
      | error e => rw [hrec] at h; cases h
      | ok l' =>
        rw [hrec] at h
        cases h
        simp [List.filter_cons, activeCond, isOkTrue, hnb, ih hrec]
    · have hnb : (n == "argocd") = false := by simp [hn]
      rw [if_neg (by simp [hn])] at h
      cases hcheck : enabledKeyCheck env_configs (underscoreName n) with
      | ok b =>
        cases b with
        | true =>
          rw [hcheck] at h
          cases hrec : computeActive n rest with
          | error e => rw [hrec] at h; cases h
          | ok l' =>
            rw [hrec] at h
            cases h
            simp [List.filter_cons, activeCond, isOkTrue, hnb, hcheck, ih hrec]
        | false =>
          rw [hcheck] at h
          simp [List.filter_cons, activeCond, isOkTrue, hnb, hcheck, ih h]
      | error e =>
        cases e with
        | keyError =>
          rw [hcheck] at h
          simp [List.filter_cons, activeCond, isOkTrue, hnb, hcheck, ih h]
        | typeError => rw [hcheck] at h; cases h

theorem computeActive_ok {n : String} {envs : List (String × Doc)}
    (h : ∀ p ∈ envs, n ≠ "argocd" →
      enabledKeyCheck p.2 (underscoreName n) ≠ .error .typeError) :
    computeActive n envs = .ok ((envs.filter (activeCond n)).map Prod.fst) := by
  induction envs with
  | nil => rfl
  | cons p rest ih =>
    obtain ⟨env_name, env_configs⟩ := p
    have hrest : computeActive n rest = .ok ((rest.filter (activeCond n)).map Prod.fst) :=
      ih (fun q hq => h q (List.mem_cons_of_mem _ hq))
    rw [computeActive]
    by_cases hn : n = "argocd"
    · have hnb : (n == "argocd") = true := by simp [hn]
      rw [if_pos hnb, hrest]
      simp [List.filter_cons, activeCond, isOkTrue, hnb]
    · have hnb : (n == "argocd") = false := by simp [hn]
      rw [if_neg (by simp [hn])]
      cases hcheck : enabledKeyCheck env_configs (underscoreName n) with
      | ok b =>
        cases b with
        | true => simp [hrest, List.filter_cons, activeCond, isOkTrue, hnb, hcheck]
        | false => simp [hrest, List.filter_cons, activeCond, isOkTrue, hnb, hcheck]
      | error e =>
        cases e with
        | keyError => simp [hrest, List.filter_cons, activeCond, isOkTrue, hnb, hcheck]
        | typeError =>
          exact absurd hcheck (h (env_name, env_configs) (List.mem_cons_self _ _) hn)
/-- Boolean form of the inclusion condition tested in the loop of
`Environment.load`. -/
def selCond (d : Doc) (a : Application) : Bool :=
  a.name == "argocd" || isOkTrue (enabledKeyCheck d a.name)

theorem selectApps_eq_filter {d : Doc} {apps sel : List Application}
    (h : selectApps d apps = .ok sel) : sel = apps.filter (selCond d) := by
  induction apps generalizing sel with
  | nil =>
    simp only [selectApps] at h
    cases h
    rfl
  | cons a rest ih =>
    rw [selectApps] at h
    by_cases hn : a.name = "argocd"
    · have hnb : (a.name == "argocd") = true := by simp [hn]
      rw [if_pos hnb] at h
      cases hrec : selectApps d rest with
      | error e => rw [hrec] at h; cases h
      | ok l' =>
        rw [hrec] at h
        cases h
        simp [List.filter_cons, selCond, isOkTrue, hnb, ih hrec]
    · have hnb : (a.name == "argocd") = false := by simp [hn]
      rw [if_neg (by simp [hn])] at h
      cases hcheck : enabledKeyCheck d a.name with
      | ok b =>
        cases b with
        | true =>
          rw [hcheck] at h
          cases hrec : selectApps d rest with
          | error e => rw [hrec] at h; cases h
          | ok l' =>
            rw [hrec] at h
            cases h
            simp [List.filter_cons, selCond, isOkTrue, hnb, hcheck, ih hrec]
        | false =>
          rw [hcheck] at h
          simp [List.filter_cons, selCond, isOkTrue, hnb, hcheck, ih h]
      | error e =>
        cases e with
        | keyError =>
          rw [hcheck] at h
          simp [List.filter_cons, selCond, isOkTrue, hnb, hcheck, ih h]
        | typeError => rw [hcheck] at h; cases h

theorem selectApps_ok {d : Doc} {apps : List Application}
    (h : ∀ a ∈ apps, a.name ≠ "argocd" → enabledKeyCheck d a.name ≠ .error .typeError) :
    selectApps d apps = .ok (apps.filter (selCond d)) := by
  induction apps with
  | nil => rfl
  | cons a rest ih =>
    have hrest : selectApps d rest = .ok (rest.filter (selCond d)) :=
      ih (fun q hq => h q (List.mem_cons_of_mem _ hq))
    rw [selectApps]
    by_cases hn : a.name = "argocd"
    · have hnb : (a.name == "argocd") = true := by simp [hn]
      rw [if_pos hnb, hrest]
      simp [List.filter_cons, selCond, isOkTrue, hnb]
    · have hnb : (a.name == "argocd") = false := by simp [hn]
      rw [if_neg (by simp [hn])]
      cases hcheck : enabledKeyCheck d a.name with
      | ok b =>
        cases b with
        | true => simp [hrest, List.filter_cons, selCond, isOkTrue, hnb, hcheck]
        | false => simp [hrest, List.filter_cons, selCond, isOkTrue, hnb, hcheck]
      | error e =>
        cases e with
        | keyError => simp [hrest, List.filter_cons, selCond, isOkTrue, hnb, hcheck]
        | typeError => exact absurd hcheck (h a (List.mem_cons_self _ _) hn)

theorem applicationLoad_of_active {n : String} {values : Doc}
    {env_values : List (String × Doc)} {template : Option String} {l : List String}
    (h : computeActive n env_values = .ok l) :
    Application.load n values env_values template =
      .ok ⟨n, values, sortStrings l, resolveNamespace template⟩ := by
  rw [Application.load, h]

theorem applicationLoad_elim {n : String} {values : Doc}
    {env_values : List (String × Doc)} {template : Option String} {a : Application}
    (h : Application.load n values env_values template = .ok a) :
    ∃ l, computeActive n env_values = .ok l ∧
      a = ⟨n, values, sortStrings l, resolveNamespace template⟩ := by
  rw [Application.load] at h
  cases hc : computeActive n env_values with
  | error e => rw [hc] at h; cases h
  | ok l => rw [hc] at h; cases h; exact ⟨l, rfl, rfl⟩

theorem environmentLoad_build {values : Doc} {apps : List Application} {nm : String}
    {sel : List Application} {dom vp : Yaml}
    (h1 : envNameOf values = .ok nm) (h2 : selectApps values apps = .ok sel)
    (h3 : Doc.get values "fqdn" = .ok dom)
    (h4 : Doc.get values "vault_path_prefix" = .ok vp) :
    Environment.load values apps = .ok ⟨nm, dom, vp, sortApps sel⟩ := by
  rw [Environment.load, h1, h2, h3, h4]

theorem environmentLoad_elim {values : Doc} {apps : List Application} {e : Environment}
    (h : Environment.load values apps = .ok e) :
    ∃ nm sel dom vp, envNameOf values = .ok nm ∧ selectApps values apps = .ok sel ∧
      Doc.get values "fqdn" = .ok dom ∧ Doc.get values "vault_path_prefix" = .ok vp ∧
      e = ⟨nm, dom, vp, sortApps sel⟩ := by
  rw [Environment.load] at h
  cases h1 : envNameOf values with
  | error er => rw [h1] at h; cases h
  | ok nm =>
    rw [h1] at h
    cases h2 : selectApps values apps with
    | error er => rw [h2] at h; cases h
    | ok sel =>
      rw [h2] at h
      cases h3 : Doc.get values "fqdn" with
      | error er => rw [h3] at h; cases h
      | ok dom =>
        rw [h3] at h
        cases h4 : Doc.get values "vault_path_prefix" with
        | error er => rw [h4] at h; cases h
        | ok vp =>
          rw [h4] at h
          cases h
          exact ⟨nm, sel, dom, vp, rfl, rfl, rfl, rfl, rfl⟩

theorem environmentLoad_err {values : Doc} (apps : List Application)
    (h : Doc.get values "environment" = .error .keyError ∨
      Doc.get values "fqdn" = .error .keyError ∨
      Doc.get values "vault_path_prefix" = .error .keyError) :
    ∃ er, Environment.load values apps = .error er := by
  rw [Environment.load]
  cases hn : envNameOf values with
  | error e => exact ⟨e, rfl⟩
  | ok nm =>
    have henv : Doc.get values "environment" ≠ .error .keyError := by
      intro hc
      rw [envNameOf, hc] at hn
      cases hn
    cases hs : selectApps values apps with
    | error e => exact ⟨e, rfl⟩
    | ok sel =>
      cases hf : Doc.get values "fqdn" with
      | error e => exact ⟨e, rfl⟩
      | ok dom =>
        cases hv : Doc.get values "vault_path_prefix" with
        | error e => exact ⟨e, rfl⟩
        | ok vp =>
          rcases h with h | h | h
          · exact absurd h henv
          · rw [hf] at h; cases h
          · rw [hv] at h; cases h
theorem insertEnv_self (acc : List (String × Doc)) (nm : String) (d : Doc) :
    (nm, d) ∈ insertEnv acc nm d := by
  rw [insertEnv]
  by_cases hany : acc.any (fun p => p.1 == nm) = true
  · rw [if_pos hany]
    obtain ⟨q, hq, hq1⟩ := List.any_eq_true.mp hany
    have hq1' : q.1 = nm := by simpa using hq1
    refine List.mem_map.mpr ⟨q, hq, ?_⟩
    simp [hq1']
  · rw [if_neg hany]
    exact List.mem_append_right _ (List.mem_singleton.mpr rfl)

theorem insertEnv_preserve {acc : List (String × Doc)} {nm' : String} {d' : Doc}
    {nm : String} {d : Doc} (hne : nm ≠ nm') (h : (nm, d) ∈ acc) :
    (nm, d) ∈ insertEnv acc nm' d' := by
  rw [insertEnv]
  by_cases hany : acc.any (fun p => p.1 == nm') = true
  · rw [if_pos hany]
    refine List.mem_map.mpr ⟨(nm, d), h, ?_⟩
    simp [hne]
  · rw [if_neg hany]
    exact List.mem_append_left _ h

theorem insertEnv_inv {acc : List (String × Doc)} {nm' : String} {d' : Doc}
    {nm : String} {d : Doc} (hacc : ∀ p ∈ acc, p.1 = nm → p.2 = d)
    (hok : nm' = nm → d' = d) :
    ∀ p ∈ insertEnv acc nm' d', p.1 = nm → p.2 = d := by
  intro p hp hp1
  rw [insertEnv] at hp
  by_cases hany : acc.any (fun q => q.1 == nm') = true
  · rw [if_pos hany] at hp
    obtain ⟨q, hq, hfq⟩ := List.mem_map.mp hp
    by_cases hq1 : q.1 = nm'
    · rw [if_pos (by simp [hq1])] at hfq
      have : p = (nm', d') := hfq.symm
      subst this
      exact hok hp1
    · rw [if_neg (by simp [hq1])] at hfq
      subst hfq
      exact hacc q hq hp1
  · rw [if_neg hany] at hp
    rcases List.mem_append.mp hp with h | h
    · exact hacc p h hp1
    · have : p = (nm', d') := List.mem_singleton.mp h
      subst this
      exact hok hp1

theorem buildEnvValues_err {docs : List Doc} {d : Doc} (hmem : d ∈ docs)
    (hfail : ∀ s, envNameOf d ≠ .ok s) :
    ∀ acc, ∃ er, buildEnvValues acc docs = .error er := by
  induction docs with
  | nil => cases hmem
  | cons d' rest ih =>
    intro acc
    simp only [buildEnvValues]
    cases hn : envNameOf d' with
    | error e => exact ⟨e, rfl⟩
    | ok nm' =>
      have hdr : d ∈ rest := by
        rcases List.mem_cons.mp hmem with heq | h
        · subst heq; exact absurd hn (hfail nm')
        · exact h
      exact ih hdr _

theorem buildEnvValues_mem {d : Doc} {nm : String} (hnm : envNameOf d = .ok nm) :
    ∀ (docs : List Doc) (acc : List (String × Doc)) (m : List (String × Doc)),
      (∀ d' ∈ docs, envNameOf d' = .ok nm → d' = d) →
      (∀ p ∈ acc, p.1 = nm → p.2 = d) →
      ((nm, d) ∈ acc ∨ d ∈ docs) →
      buildEnvValues acc docs = .ok m → (nm, d) ∈ m := by
  intro docs
  induction docs with
  | nil =>
    intro acc m _ _ hin hb
    simp only [buildEnvValues] at hb
    cases hb
    rcases hin with h | h
    · exact h
    · cases h
  | cons d' rest ih =>
    intro acc m hinj hacc hin hb
    simp only [buildEnvValues] at hb
    cases hn' : envNameOf d' with
    | error e => rw [hn'] at hb; cases hb
    | ok nm' =>
      rw [hn'] at hb
      have hok : nm' = nm → d' = d := by
        intro h
        exact hinj d' (List.mem_cons_self _ _) (h ▸ hn')
      have hinj' : ∀ x ∈ rest, envNameOf x = .ok nm → x = d :=
        fun x hx => hinj x (List.mem_cons_of_mem _ hx)
      have hacc' : ∀ p ∈ insertEnv acc nm' d', p.1 = nm → p.2 = d :=
        insertEnv_inv hacc hok
      have hin' : (nm, d) ∈ insertEnv acc nm' d' ∨ d ∈ rest := by
        rcases hin with h | h
        · by_cases he : nm = nm'
          · have hd : d' = d := hok he.symm
            refine Or.inl ?_
            rw [← he, hd]
            exact insertEnv_self acc nm d
          · exact Or.inl (insertEnv_preserve he h)
        · rcases List.mem_cons.mp h with heq | hr
          · have hd : d' = d := heq.symm
            have hnn : nm' = nm := by
              rw [hd, hnm] at hn'
              cases hn'
              rfl
            refine Or.inl ?_
            rw [hnn, hd]
            exact insertEnv_self acc nm d
          · exact Or.inr hr
      exact ih _ _ hinj' hacc' hin' hb

theorem loadEnvs_err {apps : List Application} {m : List (String × Doc)} {nm : String} {d : Doc}
    (hmem : (nm, d) ∈ m) (hfail : ∀ e, Environment.load d apps ≠ .ok e) :
    ∃ er, loadEnvs apps m = .error er := by
  induction m with
  | nil => cases hmem
  | cons p rest ih =>
    obtain ⟨nm', d'⟩ := p
    simp only [loadEnvs]
    cases hl : Environment.load d' apps with
    | error e => exact ⟨e, rfl⟩
    | ok env =>
      have hrest : (nm, d) ∈ rest := by
        rcases List.mem_cons.mp hmem with heq | h
        · have hd : d = d' := by
            injection heq with h1 h2
          exact absurd (hd ▸ hl) (hfail env)
        · exact h
      obtain ⟨er, hre⟩ := ih hrest
      rw [hre]
      exact ⟨er, rfl⟩
theorem tokenAfterQuote_shape {l : List Char} {s : String}
    (h : tokenAfterQuote l = some s) :
    ∃ c w, s = String.mk (c :: w) ∧ c.isAlpha = true ∧ w ≠ [] ∧
      ∀ x ∈ w, isWordDashChar x = true := by
  cases l with
  | nil => cases h
  | cons c t =>
    rw [tokenAfterQuote] at h
    by_cases ha : c.isAlpha = true
    · rw [if_pos ha] at h
      cases hw : t.takeWhile isWordDashChar with
      | nil => rw [hw] at h; cases h
      | cons x xs =>
        rw [hw] at h
        cases h
        refine ⟨c, x :: xs, rfl, ha, by simp, ?_⟩
        intro y hy
        exact List.mem_takeWhile_imp (hw ▸ hy)
    · rw [if_neg ha] at h
      cases h

theorem matchNamespaceAt_eq_token {cs : List Char} {s : String}
    (h : matchNamespaceAt cs = some s) :
    ∃ l, tokenAfterQuote l = some s := by
  rw [matchNamespaceAt] at h
  split at h
  · cases h
  · split at h
    · split at h
      · cases h
      · exact ⟨_, h⟩
    · cases h

theorem matchNamespaceAt_shape {cs : List Char} {s : String}
    (h : matchNamespaceAt cs = some s) :
    ∃ c w, s = String.mk (c :: w) ∧ c.isAlpha = true ∧ w ≠ [] ∧
      ∀ x ∈ w, isWordDashChar x = true := by
  obtain ⟨l, hl⟩ := matchNamespaceAt_eq_token h
  exact tokenAfterQuote_shape hl

theorem searchNamespace_shape {cs : List Char} {s : String}
    (h : searchNamespace cs = some s) :
    ∃ c w, s = String.mk (c :: w) ∧ c.isAlpha = true ∧ w ≠ [] ∧
      ∀ x ∈ w, isWordDashChar x = true := by
  induction cs with
  | nil => cases h
  | cons c rest ih =>
    rw [searchNamespace] at h
    cases hm : matchNamespaceAt (c :: rest) with
    | some s' =>
      rw [hm] at h
      cases h
      exact matchNamespaceAt_shape hm
    | none =>
      rw [hm] at h
      exact ih h
theorem activeCond_iff (n : String) (p : String × Doc) :
    activeCond n p = true ↔
      n = "argocd" ∨ enabledKeyCheck p.2 (underscoreName n) = .ok true := by
  rw [activeCond, Bool.or_eq_true, beq_iff_eq, isOkTrue_iff]

theorem selCond_iff (d : Doc) (a : Application) :
    selCond d a = true ↔
      a.name = "argocd" ∨ enabledKeyCheck d a.name = .ok true := by
  rw [selCond, Bool.or_eq_true, beq_iff_eq, isOkTrue_iff]

theorem computeActive_mem {n : String} {envs : List (String × Doc)} {l : List String}
    (h : computeActive n envs = .ok l) (x : String) :
    x ∈ l ↔ ∃ cfg, (x, cfg) ∈ envs ∧
      (n = "argocd" ∨ enabledKeyCheck cfg (underscoreName n) = .ok true) := by
  rw [computeActive_eq_filter h]
  constructor
  · intro hx
    obtain ⟨p, hp, hpx⟩ := List.mem_map.mp hx
    obtain ⟨hpe, hpc⟩ := List.mem_filter.mp hp
    refine ⟨p.2, ?_, (activeCond_iff n p).mp hpc⟩
    rw [← hpx]
    exact hpe
  · rintro ⟨cfg, hmem, hcond⟩
    exact List.mem_map.mpr ⟨(x, cfg),
      List.mem_filter.mpr ⟨hmem, (activeCond_iff n (x, cfg)).mpr hcond⟩, rfl⟩

theorem selectApps_mem {d : Doc} {apps sel : List Application}
    (h : selectApps d apps = .ok sel) (a : Application) :
    a ∈ sel ↔ a ∈ apps ∧ (a.name = "argocd" ∨ enabledKeyCheck d a.name = .ok true) := by
  rw [selectApps_eq_filter h]
  rw [List.mem_filter, selCond_iff]

theorem computeActive_sublist {n : String} {envs : List (String × Doc)} {l : List String}
    (h : computeActive n envs = .ok l) : l.Sublist (envs.map Prod.fst) := by
  rw [computeActive_eq_filter h]
  exact (List.filter_sublist envs).map Prod.fst

theorem computeActive_argocd (envs : List (String × Doc)) :
    computeActive "argocd" envs = .ok (envs.map Prod.fst) := by
  induction envs with
  | nil => rfl
  | cons p rest ih =>
    obtain ⟨a, b⟩ := p
    rw [computeActive, if_pos (by rfl)]
    simp [ih]

theorem Doc.get_ok_iff {d : Doc} {k : String} {v : Yaml} :
    Doc.get d k = .ok v ↔ List.lookup k d = some v := by
  rw [Doc.get]
  cases h : List.lookup k d <;> simp

theorem getKey_map_ok_iff {m : List (String × Yaml)} {k : String} {v : Yaml} :
    (Yaml.map m).getKey k = .ok v ↔ List.lookup k m = some v := by
  rw [Yaml.getKey]
  cases h : List.lookup k m <;> simp

theorem getKey_ok_elim {y : Yaml} {k : String} {v : Yaml} (h : y.getKey k = .ok v) :
    ∃ m, y = Yaml.map m ∧ List.lookup k m = some v := by
  cases y with
  | map m =>
    exact ⟨m, rfl, getKey_map_ok_iff.mp h⟩
  | null => cases h
  | bool b => cases h
  | int n => cases h
  | str s => cases h
  | seq xs => cases h

/-!
Claim theorems, witnesses and counterexamples.
-/

/-!
Concrete fixtures used by witnesses and counterexamples.
-/

/-- Environment document with the three mandatory keys and one enabled
application (gafaelfawr). -/
def gafDoc : Doc :=
  [("environment", Yaml.str "dev"), ("fqdn", Yaml.str "dev.example.org"),
   ("vault_path_prefix", Yaml.str "secret/dev"),
   ("gafaelfawr", Yaml.map [("enabled", Yaml.bool true)])]

/-- The gafaelfawr application as loaded from `gafDoc` with no values files
and no template. -/
def gafApp0 : Application := ⟨"gafaelfawr", [], ["dev"], "Unknown"⟩

/-- The environment loaded from `gafDoc` against `[gafApp0]`. -/
def gafEnv : Environment :=
  ⟨"dev", Yaml.str "dev.example.org", Yaml.str "secret/dev", [gafApp0]⟩

/-- Environment document whose enablement key for the hyphenated application
`foo-bar` is spelled `foo_bar`, as the on-disk convention requires. -/
def fooBarDoc : Doc :=
  [("environment", Yaml.str "dev"), ("fqdn", Yaml.str "dev.example.org"),
   ("vault_path_prefix", Yaml.str "secret/dev"),
   ("foo_bar", Yaml.map [("enabled", Yaml.bool true)])]

/-- The `foo-bar` application as loaded from `fooBarDoc`. -/
def fooBarApp : Application := ⟨"foo-bar", [], ["dev"], "Unknown"⟩

/-- Claim C1 as stated is false at this input: the environment loads with
gafaelfawr present in `apps`, but gafaelfawr has no values entry for the
environment name, and reading `identity_provider` raises `KeyError` instead
of recovering to a provider kind (the lookups on models.py line 169 are not
protected by the `try/except KeyError` the sibling accessors use). -/
theorem C1_counterexample :
    (Phalanx.load [gafDoc] [⟨"gafaelfawr", [], none⟩]).map
      (fun p => p.environments.map (fun e => e.identity_provider)) =
      .ok [.error .keyError] := rfl

/-- Claim C1 (amended): reading `identity_provider` returns `"Unknown"` when
the gafaelfawr application is absent from `e.apps`; every non-exceptional
result is one of the enumerated kinds or `"Unknown"`; but when gafaelfawr is
present and its loaded values have no entry for `e.name`, the read fails
with a `KeyError` (and the `config` lookup is likewise unprotected) — the
missing derived-fact data is not recovered locally in this accessor. -/
theorem C1_identity_provider_behavior (e : Environment) :
    (e.get_app "gafaelfawr" = none → e.identity_provider = .ok "Unknown") ∧
    (∀ s, e.identity_provider = .ok s →
      s = "CILogon" ∨ s = "GitHub" ∨ s = "OIDC" ∨ s = "Unknown") ∧
    (∀ g, e.get_app "gafaelfawr" = some g → List.lookup e.name g.values = none →
      e.identity_provider = .error .keyError) ∧
    (∀ g v er, e.get_app "gafaelfawr" = some g →
      Doc.get g.values e.name = .ok v → v.getKey "config" = .error er →
      e.identity_provider = .error er) := by
  refine ⟨?_, ?_, ?_, ?_⟩
  · intro h
    rw [Environment.identity_provider, h]
  · intro s hs
    rw [Environment.identity_provider] at hs
    split at hs
    · cases hs; simp
    · split at hs
      · cases hs
      · split at hs
        · cases hs
        · split at hs
          · cases hs
          · cases hs; simp
          · split at hs
            · cases hs
            · cases hs; simp
            · split at hs
              · cases hs
              · cases hs; simp
              · cases hs; simp
  · intro g hg hlook
    have hget : Doc.get g.values e.name = .error .keyError := by
      rw [Doc.get, hlook]
    simp [Environment.identity_provider, hg, hget]
  · intro g v er hg hv hc
    simp [Environment.identity_provider, hg, hv, hc]

/-- Claim C1 witness: a concrete environment with no gafaelfawr application
reads `identity_provider = Unknown`. -/
theorem C1_witness :
    (⟨"dev", Yaml.str "d", Yaml.str "v", []⟩ : Environment).identity_provider =
      .ok "Unknown" :=
  (C1_identity_provider_behavior ⟨"dev", Yaml.str "d", Yaml.str "v", []⟩).1 rfl

/-- Claim C2 as stated is false at this input: the application `foo-bar` is
cross-referenced with underscores substituted only by the Application
Resolver (its `active_environments` finds the `foo_bar` key and becomes
`["dev"]`), while the Environment Resolver looks up the exact hyphenated
name, misses the `foo_bar` key, and excludes the application from `apps`. -/
theorem C2_counterexample :
    (Phalanx.load [fooBarDoc] [⟨"foo-bar", [], none⟩]).map
      (fun p => (p.apps.map (fun a => a.active_environments),
        p.environments.map (fun e => e.apps.map (fun a => a.name)))) =
      .ok ([["dev"]], [[]]) := rfl

/-- Claim C2 (amended): the hyphen-to-underscore substitution is applied
only when the Application Resolver computes `active_environments`
(the document key probed is `underscoreName` of the application name);
the Environment Resolver probes the document at the application's exact
name, with no substitution. -/
theorem C2_normalization_one_sided (n : String) (envs : List (String × Doc))
    (d : Doc) (apps : List Application) :
    (∀ l, computeActive n envs = .ok l → ∀ x,
      x ∈ l ↔ ∃ cfg, (x, cfg) ∈ envs ∧
        (n = "argocd" ∨ enabledKeyCheck cfg (underscoreName n) = .ok true)) ∧
    (∀ sel, selectApps d apps = .ok sel → ∀ a,
      a ∈ sel ↔ a ∈ apps ∧ (a.name = "argocd" ∨ enabledKeyCheck d a.name = .ok true)) :=
  ⟨fun _ hl x => computeActive_mem hl x, fun _ hs a => selectApps_mem hs a⟩

/-- Claim C2 witness: both selection loops evaluated at the fixture. -/
theorem C2_witness :
    ("dev" ∈ (["dev"] : List String) ↔ ∃ cfg, (("dev" : String), cfg) ∈
        [(("dev" : String), fooBarDoc)] ∧
        ("foo-bar" = "argocd" ∨ enabledKeyCheck cfg (underscoreName "foo-bar") = .ok true)) ∧
    (fooBarApp ∈ ([] : List Application) ↔ fooBarApp ∈ [fooBarApp] ∧
      (fooBarApp.name = "argocd" ∨ enabledKeyCheck fooBarDoc fooBarApp.name = .ok true)) := by
  have h := C2_normalization_one_sided "foo-bar" [("dev", fooBarDoc)] fooBarDoc [fooBarApp]
  exact ⟨h.1 ["dev"] rfl "dev", h.2 [] rfl fooBarApp⟩

/-- Claim C3: a loaded Environment's `apps` list is sorted ascending by
application name and contains an application exactly when it is `argocd` or
the document has a top-level key of the exact application name whose
`enabled` field is exactly `true`; and when the mandatory keys resolve and
no enablement entry is of a non-mapping shape, the load returns normally
(missing keys at any level are "not included", not an error). -/
theorem C3_env_apps_sorted_iff (values : Doc) (apps : List Application) :
    (∀ e, Environment.load values apps = .ok e →
      e.apps.Pairwise (fun a b => strLe a.name b.name = true) ∧
      (∀ x, x ∈ e.apps ↔ x ∈ apps ∧
        (x.name = "argocd" ∨ enabledKeyCheck values x.name = .ok true))) ∧
    ((∃ nm, envNameOf values = .ok nm) → (∃ dv, Doc.get values "fqdn" = .ok dv) →
      (∃ vv, Doc.get values "vault_path_prefix" = .ok vv) →
      (∀ a ∈ apps, a.name ≠ "argocd" → enabledKeyCheck values a.name ≠ .error .typeError) →
      ∃ e, Environment.load values apps = .ok e) := by
  constructor
  · intro e he
    obtain ⟨nm, sel, dom, vp, h1, h2, h3, h4, he'⟩ := environmentLoad_elim he
    subst he'
    constructor
    · exact sortApps_sorted sel
    · intro x
      have hx : x ∈ sortApps sel ↔ x ∈ sel := (sortApps_perm sel).mem_iff
      rw [show (Environment.mk nm dom vp (sortApps sel)).apps = sortApps sel from rfl, hx]
      exact selectApps_mem h2 x
  · rintro ⟨nm, hnm⟩ ⟨dv, hdv⟩ ⟨vv, hvv⟩ hwt
    exact ⟨_, environmentLoad_build hnm (selectApps_ok hwt) hdv hvv⟩

/-- Claim C3 witness: the loaded fixture environment is sorted and contains
gafaelfawr by the iff. -/
theorem C3_witness :
    gafEnv.apps.Pairwise (fun a b => strLe a.name b.name = true) ∧
    (gafApp0 ∈ gafEnv.apps ↔ gafApp0 ∈ [gafApp0] ∧
      (gafApp0.name = "argocd" ∨ enabledKeyCheck gafDoc gafApp0.name = .ok true)) := by
  have h := (C3_env_apps_sorted_iff gafDoc [gafApp0]).1 gafEnv (by rfl)
  exact ⟨h.1, h.2 gafApp0⟩
/-- Claim C4: the bootstrap application `argocd` is active in every known
environment — its `active_environments` is exactly the sorted list of all
environment names, whatever the documents say — and any application named
`argocd` in the resolver input is included in every loaded Environment's
`apps` list. -/
theorem C4_bootstrap_always_active :
    (∀ (vals : Doc) (envs : List (String × Doc)) (tmpl : Option String),
      ∃ a, Application.load "argocd" vals envs tmpl = .ok a ∧
        a.active_environments = sortStrings (envs.map Prod.fst) ∧
        ∀ x, x ∈ a.active_environments ↔ x ∈ envs.map Prod.fst) ∧
    (∀ (values : Doc) (apps : List Application) (e : Environment),
      Environment.load values apps = .ok e →
      ∀ g ∈ apps, g.name = "argocd" → g ∈ e.apps) := by
  constructor
  · intro vals envs tmpl
    refine ⟨_, applicationLoad_of_active (computeActive_argocd envs), rfl, ?_⟩
    intro x
    exact (sortStrings_perm (envs.map Prod.fst)).mem_iff
  · intro values apps e he g hg hname
    obtain ⟨nm, sel, dom, vp, h1, h2, h3, h4, he'⟩ := environmentLoad_elim he
    subst he'
    show g ∈ sortApps sel
    rw [(sortApps_perm sel).mem_iff]
    exact (selectApps_mem h2 g).mpr ⟨hg, Or.inl hname⟩

/-- The argocd application as loaded with `gafDoc` as the only environment. -/
def argoApp1 : Application := ⟨"argocd", [], ["dev"], "Unknown"⟩

/-- The environment loaded from `gafDoc` against `[argoApp1]`: argocd is
included although `gafDoc` has no `argocd` key at all. -/
def argoEnv : Environment :=
  ⟨"dev", Yaml.str "dev.example.org", Yaml.str "secret/dev", [argoApp1]⟩

/-- Claim C4 witness: argocd lands in the loaded fixture environment even
though the document has no argocd enablement key. -/
theorem C4_witness : argoApp1 ∈ argoEnv.apps :=
  C4_bootstrap_always_active.2 gafDoc [argoApp1] argoEnv (by rfl) argoApp1
    (by simp) rfl

/-- Claim C5: a loaded Application's `active_environments` is sorted
ascending, duplicate-free (given the environment names, which Python holds
as dict keys, are distinct), and each entry is one of the known environment
names passed to the resolver. -/
theorem C5_active_env_invariants (n : String) (vals : Doc)
    (envs : List (String × Doc)) (tmpl : Option String) (a : Application)
    (hload : Application.load n vals envs tmpl = .ok a)
    (hnodup : (envs.map Prod.fst).Nodup) :
    a.active_environments.Pairwise (fun x y => strLe x y = true) ∧
    a.active_environments.Nodup ∧
    ∀ x ∈ a.active_environments, x ∈ envs.map Prod.fst := by
  obtain ⟨l, hl, ha⟩ := applicationLoad_elim hload
  subst ha
  have hsub : l.Sublist (envs.map Prod.fst) := computeActive_sublist hl
  have hnd : l.Nodup := hnodup.sublist hsub
  refine ⟨sortStrings_sorted l, ?_, ?_⟩
  · exact ((sortStrings_perm l).nodup_iff).mpr hnd
  · intro x hx
    exact hsub.subset ((sortStrings_perm l).mem_iff.mp hx)

/-- Claim C5 witness: the fixture gafaelfawr application, loaded against the
one known environment, has sorted duplicate-free active environments. -/
theorem C5_witness :
    gafApp0.active_environments.Pairwise (fun x y => strLe x y = true) ∧
    gafApp0.active_environments.Nodup :=
  ⟨(C5_active_env_invariants "gafaelfawr" [] [("dev", gafDoc)] none gafApp0
      (by rfl) (by simp)).1,
   (C5_active_env_invariants "gafaelfawr" [] [("dev", gafDoc)] none gafApp0
      (by rfl) (by simp)).2.1⟩

/-- The template text of the claim C6 example. -/
def tmplFoo : String := "destination:\n  namespace: \"foo-bar\""

/-- Claim C6: when a template file is present, the loaded application's
namespace is the captured token of the search when it matches (`"Unknown"`
otherwise); every captured token starts with a letter followed by a
nonempty run of alphanumerics, hyphens or underscores; and the claim's
example template captures exactly `"foo-bar"`. -/
theorem C6_namespace_extraction :
    (∀ (n : String) (vals : Doc) (envs : List (String × Doc)) (t : String)
      (a : Application), Application.load n vals envs (some t) = .ok a →
      a.nspace = (extractNamespace t).getD "Unknown") ∧
    (∀ t ns, extractNamespace t = some ns →
      ∃ c w, ns = String.mk (c :: w) ∧ c.isAlpha = true ∧ w ≠ [] ∧
        ∀ x ∈ w, isWordDashChar x = true) ∧
    extractNamespace tmplFoo = some "foo-bar" := by
  refine ⟨?_, ?_, rfl⟩
  · intro n vals envs t a h
    obtain ⟨l, hl, ha⟩ := applicationLoad_elim h
    subst ha
    show resolveNamespace (some t) = (extractNamespace t).getD "Unknown"
    cases hx : extractNamespace t <;> simp [resolveNamespace, hx]
  · intro t ns h
    exact searchNamespace_shape h

/-- The application of the claim C6 example, as loaded with the example
template. -/
def portalApp : Application := ⟨"portal", [], [], "foo-bar"⟩

/-- Claim C6 witness: loading with the example template resolves the
namespace to the captured token. -/
theorem C6_witness : portalApp.nspace = (extractNamespace tmplFoo).getD "Unknown" :=
  C6_namespace_extraction.1 "portal" [] [] tmplFoo portalApp (by rfl)

/-- Claim C7: with no template file, or a template whose text the pattern
does not match, the load still returns normally and records the namespace
sentinel `"Unknown"` (the printed diagnostic is a side effect only). -/
theorem C7_no_template_unknown (n : String) (vals : Doc)
    (envs : List (String × Doc)) (tmpl : Option String) (l : List String)
    (hactive : computeActive n envs = .ok l)
    (htmpl : tmpl = none ∨ ∃ t, tmpl = some t ∧ extractNamespace t = none) :
    Application.load n vals envs tmpl = .ok ⟨n, vals, sortStrings l, "Unknown"⟩ := by
  have hns : resolveNamespace tmpl = "Unknown" := by
    rcases htmpl with h | ⟨t, ht, hext⟩
    · subst h; rfl
    · subst ht
      simp [resolveNamespace, hext]
  rw [applicationLoad_of_active hactive, hns]

/-- Claim C7 witness: an application with no template file loads normally
with namespace `"Unknown"`. -/
theorem C7_witness :
    Application.load "sherlock" [] [("dev", gafDoc)] none =
      .ok ⟨"sherlock", [], [], "Unknown"⟩ :=
  C7_no_template_unknown "sherlock" [] [("dev", gafDoc)] none [] (by rfl)
    (Or.inl rfl)
/-- Claim C8: an environment document lacking one of the mandatory keys
`environment`, `fqdn` or `vault_path_prefix` makes that environment's
resolution fail, and the whole repository load fail with it — no partial
model is returned.  (The uniqueness hypothesis mirrors the dict keyed by
environment name in the source: no distinct document shadows this one.) -/
theorem C8_missing_mandatory_fatal (d : Doc) (envDocs : List Doc)
    (appInputs : List AppInput) (apps : List Application)
    (hmem : d ∈ envDocs)
    (hinj : ∀ d' ∈ envDocs, ∀ nm, envNameOf d' = .ok nm → envNameOf d = .ok nm → d' = d)
    (hmiss : Doc.get d "environment" = .error .keyError ∨
      Doc.get d "fqdn" = .error .keyError ∨
      Doc.get d "vault_path_prefix" = .error .keyError) :
    (∃ er, Environment.load d apps = .error er) ∧
    (∃ er, Phalanx.load envDocs appInputs = .error er) := by
  constructor
  · exact environmentLoad_err apps hmiss
  · cases hb : buildEnvValues [] envDocs with
    | error e => exact ⟨e, by simp [Phalanx.load, hb]⟩
    | ok env_values =>
      by_cases hname : ∃ nm, envNameOf d = .ok nm
      · obtain ⟨nm, hnm⟩ := hname
        have hinj' : ∀ d' ∈ envDocs, envNameOf d' = .ok nm → d' = d :=
          fun d' hd' h' => hinj d' hd' nm h' hnm
        have hmemv : (nm, d) ∈ env_values :=
          buildEnvValues_mem hnm envDocs [] env_values hinj'
            (by intro p hp; cases hp) (Or.inr hmem) hb
        cases ha : loadApps env_values appInputs with
        | error e => exact ⟨e, by simp [Phalanx.load, hb, ha]⟩
        | ok apps' =>
          have hfail : ∀ e, Environment.load d (sortApps apps') ≠ .ok e := by
            intro e he
            obtain ⟨er, her⟩ := environmentLoad_err (sortApps apps') hmiss
            rw [her] at he
            cases he
          obtain ⟨er, her⟩ := loadEnvs_err hmemv hfail
          exact ⟨er, by simp [Phalanx.load, hb, ha, her]⟩
      · have hall : ∀ s, envNameOf d ≠ .ok s := by
          intro s hs
          exact hname ⟨s, hs⟩
        obtain ⟨er, her⟩ := buildEnvValues_err hmem hall []
        rw [her] at hb
        cases hb

/-- Environment document missing the mandatory `fqdn` key. -/
def fqdnlessDoc : Doc :=
  [("environment", Yaml.str "dev"), ("vault_path_prefix", Yaml.str "secret/dev")]

/-- Claim C8 witness: a document without `fqdn` aborts both the single
environment resolution and the whole repository load. -/
theorem C8_witness :
    (∃ er, Environment.load fqdnlessDoc [] = .error er) ∧
    (∃ er, Phalanx.load [fqdnlessDoc] [] = .error er) :=
  C8_missing_mandatory_fatal fqdnlessDoc [fqdnlessDoc] [] [] (by simp)
    (fun d' hd' nm h1 h2 => by simpa using hd') (Or.inr (Or.inl rfl))

/-- Claim C9: the provider classification probes the gafaelfawr config for
the provider sub-keys in the fixed order cilogon, github, oidc, so an
earlier key takes precedence over any later ones (a config holding both
`cilogon` and `github` classifies as CILogon). -/
theorem C9_provider_precedence (e : Environment) (g : Application) (v : Yaml)
    (cm : List (String × Yaml))
    (hg : e.get_app "gafaelfawr" = some g)
    (hv : Doc.get g.values e.name = .ok v)
    (hc : v.getKey "config" = .ok (Yaml.map cm)) :
    (cm.any (fun p => p.1 == "cilogon") = true →
      e.identity_provider = .ok "CILogon") ∧
    (cm.any (fun p => p.1 == "cilogon") = false →
      cm.any (fun p => p.1 == "github") = true →
      e.identity_provider = .ok "GitHub") ∧
    (cm.any (fun p => p.1 == "cilogon") = false →
      cm.any (fun p => p.1 == "github") = false →
      cm.any (fun p => p.1 == "oidc") = true →
      e.identity_provider = .ok "OIDC") ∧
    (cm.any (fun p => p.1 == "cilogon") = false →
      cm.any (fun p => p.1 == "github") = false →
      cm.any (fun p => p.1 == "oidc") = false →
      e.identity_provider = .ok "Unknown") := by
  refine ⟨?_, ?_, ?_, ?_⟩
  · intro h1
    simp [Environment.identity_provider, hg, hv, hc, Yaml.containsPy, h1]
  · intro h1 h2
    simp [Environment.identity_provider, hg, hv, hc, Yaml.containsPy, h1, h2]
  · intro h1 h2 h3
    simp [Environment.identity_provider, hg, hv, hc, Yaml.containsPy, h1, h2, h3]
  · intro h1 h2 h3
    simp [Environment.identity_provider, hg, hv, hc, Yaml.containsPy, h1, h2, h3]

/-- A gafaelfawr application whose config for `dev` has both `cilogon` and
`github` keys. -/
def gafBothApp : Application :=
  ⟨"gafaelfawr",
   [("dev", Yaml.map [("config",
      Yaml.map [("cilogon", Yaml.null), ("github", Yaml.null)])])],
   ["dev"], "Unknown"⟩

/-- The environment holding `gafBothApp`. -/
def gafBothEnv : Environment :=
  ⟨"dev", Yaml.str "dev.example.org", Yaml.str "secret/dev", [gafBothApp]⟩

/-- Claim C9 witness: with both `cilogon` and `github` present, the
classification is CILogon. -/
theorem C9_witness : gafBothEnv.identity_provider = .ok "CILogon" :=
  (C9_provider_precedence gafBothEnv gafBothApp
    (Yaml.map [("config", Yaml.map [("cilogon", Yaml.null), ("github", Yaml.null)])])
    [("cilogon", Yaml.null), ("github", Yaml.null)] rfl rfl rfl).1 rfl

/-- Claim C10: the enablement check of both resolvers accepts exactly the
boolean value `true` under the `enabled` key — any other value (a string
`"true"`, a number, null, a nested mapping) yields "not enabled" — and
consequently membership in an Environment's `apps` or an Application's
`active_environments` away from the argocd special case forces an
`enabled` entry that is exactly `true`. -/
theorem C10_enabled_is_exactly_true (d : Doc) (k : String) :
    (enabledKeyCheck d k = .ok true ↔
      ∃ m, List.lookup k d = some (Yaml.map m) ∧
        List.lookup "enabled" m = some (Yaml.bool true)) ∧
    (∀ m w, List.lookup k d = some (Yaml.map m) →
      List.lookup "enabled" m = some w → w ≠ Yaml.bool true →
      enabledKeyCheck d k = .ok false) ∧
    (∀ apps e x, Environment.load d apps = .ok e → x ∈ e.apps →
      x.name ≠ "argocd" → enabledKeyCheck d x.name = .ok true) ∧
    (∀ n envs l x, computeActive n envs = .ok l → x ∈ l → n ≠ "argocd" →
      ∃ cfg, (x, cfg) ∈ envs ∧ enabledKeyCheck cfg (underscoreName n) = .ok true) := by
  refine ⟨⟨?_, ?_⟩, ?_, ?_, ?_⟩
  · intro h
    cases hd : List.lookup k d with
    | none => simp [enabledKeyCheck, Doc.get, hd] at h
    | some v =>
      cases v with
      | map m =>
        cases hm : List.lookup "enabled" m with
        | none => simp [enabledKeyCheck, Doc.get, Yaml.getKey, hd, hm] at h
        | some w =>
          cases w with
          | bool b =>
            cases b with
            | true => exact ⟨m, rfl, hm⟩
            | false => simp [enabledKeyCheck, Doc.get, Yaml.getKey, hd, hm] at h
          | null => simp [enabledKeyCheck, Doc.get, Yaml.getKey, hd, hm] at h
          | int q => simp [enabledKeyCheck, Doc.get, Yaml.getKey, hd, hm] at h
          | str s => simp [enabledKeyCheck, Doc.get, Yaml.getKey, hd, hm] at h
          | seq xs => simp [enabledKeyCheck, Doc.get, Yaml.getKey, hd, hm] at h
          | map mm => simp [enabledKeyCheck, Doc.get, Yaml.getKey, hd, hm] at h
      | null => simp [enabledKeyCheck, Doc.get, Yaml.getKey, hd] at h
      | bool b => simp [enabledKeyCheck, Doc.get, Yaml.getKey, hd] at h
      | int q => simp [enabledKeyCheck, Doc.get, Yaml.getKey, hd] at h
      | str s => simp [enabledKeyCheck, Doc.get, Yaml.getKey, hd] at h
      | seq xs => simp [enabledKeyCheck, Doc.get, Yaml.getKey, hd] at h
  · rintro ⟨m, h1, h2⟩
    simp [enabledKeyCheck, Doc.get, Yaml.getKey, h1, h2]
  · intro m w h1 h2 hw
    cases w with
    | bool b =>
      cases b with
      | true => exact absurd rfl hw
      | false => simp [enabledKeyCheck, Doc.get, Yaml.getKey, h1, h2]
    | null => simp [enabledKeyCheck, Doc.get, Yaml.getKey, h1, h2]
    | int q => simp [enabledKeyCheck, Doc.get, Yaml.getKey, h1, h2]
    | str s => simp [enabledKeyCheck, Doc.get, Yaml.getKey, h1, h2]
    | seq xs => simp [enabledKeyCheck, Doc.get, Yaml.getKey, h1, h2]
    | map mm => simp [enabledKeyCheck, Doc.get, Yaml.getKey, h1, h2]
  · intro apps e x he hx hnm
    obtain ⟨nm, sel, dom, vp, h1, h2, h3, h4, he'⟩ := environmentLoad_elim he
    subst he'
    have hxsel : x ∈ sel := (sortApps_perm sel).mem_iff.mp hx
    rcases (selectApps_mem h2 x).mp hxsel with ⟨hxa, hcond⟩
    rcases hcond with h | h
    · exact absurd h hnm
    · exact h
  · intro n envs l x hl hx hn
    rcases (computeActive_mem hl x).mp hx with ⟨cfg, hmem, hcond⟩
    rcases hcond with h | h
    · exact absurd h hn
    · exact ⟨cfg, hmem, h⟩

/-- Document whose `enabled` entry is the string `"true"`, not the boolean. -/
def strTrueDoc : Doc := [("portal", Yaml.map [("enabled", Yaml.str "true")])]

/-- Claim C10 witness: a string `"true"` under `enabled` does not enable. -/
theorem C10_witness : enabledKeyCheck strTrueDoc "portal" = .ok false :=
  (C10_enabled_is_exactly_true strTrueDoc "portal").2.1
    [("enabled", Yaml.str "true")] (Yaml.str "true") rfl rfl (by simp)
